import Mathlib

/-!
Verification of the `lru-cache` Rust crate (`src/lib.rs`).

The embedding mirrors the source faithfully:
* `Node` ↔ `struct Node<K> { key: K, next: Option<usize> }`;
* `LRUCache` ↔ `struct LRUCache<K, V>` with `table : HashMap<K,(V,usize)>`
  modelled as an association list with HashMap semantics, `nodes : Vec<Node<K>>`
  modelled as a `List`, and `head`, `tail`, `size` as in the source;
* every `Vec` index and every `Option::unwrap` in the source is modelled as an
  `Option`-valued step, so a Rust panic appears as `none`.
-/

namespace Lru

structure Node (K : Type) where
  key : K
  next : Option Nat
  deriving DecidableEq, Repr

structure LRUCache (K V : Type) where
  table : List (K × V × Nat)
  nodes : List (Node K)
  head : Option Nat
  tail : Option Nat
  size : Nat
  deriving DecidableEq, Repr

variable {K V : Type} [DecidableEq K]

/-- `HashMap::get` on the association-list model of `table`. -/
def findTab (t : List (K × V × Nat)) (k : K) : Option (V × Nat) :=
  match t with
  | [] => none
  | (k', vi) :: rest => if k' = k then some vi else findTab rest k

/-- `HashMap::insert` (replaces any existing binding of `k`). -/
def insertTab (t : List (K × V × Nat)) (k : K) (vi : V × Nat) : List (K × V × Nat) :=
  (k, vi) :: t.filter (fun e => decide (e.1 ≠ k))

/-- `HashMap::remove`. -/
def removeTab (t : List (K × V × Nat)) (k : K) : List (K × V × Nat) :=
  t.filter (fun e => decide (e.1 ≠ k))

/-- `self.nodes[i].next = nx`: a `Vec` indexed write of the `next` field;
out-of-bounds indexing panics, modelled by `none`. -/
def setNext (ns : List (Node K)) (i : Nat) (nx : Option Nat) : Option (List (Node K)) :=
  match ns.get? i with
  | none => none
  | some nd => some (ns.set i ⟨nd.key, nx⟩)

/-- `self.nodes[i] = nd`: a `Vec` indexed write of a whole node. -/
def setNode (ns : List (Node K)) (i : Nat) (nd : Node K) : Option (List (Node K)) :=
  if i < ns.length then some (ns.set i nd) else none

/-- `LRUCache::new(size)`: plain construction, no validation of `size`. -/
def LRUCache.new (K V : Type) (size : Nat) : LRUCache K V :=
  ⟨[], [], none, none, size⟩

/-- The shared tail-update fragment of `put` (hit branch) and `get`:
`if let Some(tail) = self.tail { if tail == i { self.tail = self.nodes[tail].next } }`. -/
def tailFix (c : LRUCache K V) (i : Nat) : Option (LRUCache K V) :=
  match c.tail with
  | none => some c
  | some tl =>
    if tl = i then
      match c.nodes.get? tl with
      | none => none
      | some nd => some { c with tail := nd.next }
    else some c

/-- The shared head-update fragment of `put` (hit branch) and `get`:
`self.nodes[self.head.unwrap()].next = Some(i); self.head = Some(i);`. -/
def promote (c : LRUCache K V) (i : Nat) : Option (LRUCache K V) :=
  match c.head with
  | none => none
  | some h =>
    match setNext c.nodes h (some i) with
    | none => none
    | some ns => some { c with nodes := ns, head := some i }

/-- `LRUCache::append`. -/
def appendNode (c : LRUCache K V) (k : K) (v : V) : Option (LRUCache K V) :=
  if c.nodes.isEmpty then
    some { c with
      nodes := [⟨k, none⟩]
      head := some 0
      tail := some 0
      table := insertTab c.table k (v, 0) }
  else
    let newI := c.nodes.length
    let ns0 := c.nodes ++ [⟨k, none⟩]
    match c.head with
    | none => none
    | some h =>
      match setNext ns0 h (some newI) with
      | none => none
      | some ns =>
        some { c with
          nodes := ns
          head := some newI
          table := insertTab c.table k (v, newI) }

/-- The eviction branch of `put` (miss with `nodes.len() >= size`), statement by
statement in source order, re-reading `nodes[tail]` after the write to
`nodes[head]` exactly as the source does. -/
def evictPut (c : LRUCache K V) (k : K) (v : V) : Option (LRUCache K V) :=
  match c.head, c.tail with
  | some h, some tl =>
    match c.nodes.get? tl with
    | none => none
    | some tlNode =>
      let c1 : LRUCache K V := { c with table := removeTab c.table tlNode.key }
      match setNext c1.nodes h (some tl) with
      | none => none
      | some ns1 =>
        let c2 : LRUCache K V := { c1 with nodes := ns1 }
        match c2.nodes.get? tl with
        | none => none
        | some tlNode2 =>
          let c3 : LRUCache K V := { c2 with tail := tlNode2.next, head := some tl }
          match setNode c3.nodes tl ⟨k, none⟩ with
          | none => none
          | some ns2 => some { c3 with nodes := ns2, table := insertTab c3.table k (v, tl) }
  | _, _ => none

/-- `LRUCache::put`. -/
def put (c : LRUCache K V) (k : K) (v : V) : Option (LRUCache K V) :=
  match findTab c.table k with
  | some (_, i) =>
    match tailFix { c with table := insertTab c.table k (v, i) } i with
    | none => none
    | some c1 => promote c1 i
  | none =>
    if c.nodes.length < c.size then appendNode c k v
    else evictPut c k v

/-- `LRUCache::get`: returns `(value-or-miss, new state)`, or `none` on panic. -/
def get (c : LRUCache K V) (k : K) : Option (Option V × LRUCache K V) :=
  match findTab c.table k with
  | none => some (none, c)
  | some (_, i) =>
    match tailFix c i with
    | none => none
    | some c1 =>
      match promote c1 i with
      | none => none
      | some c2 => some ((findTab c2.table k).map (·.1), c2)

/-- A public operation of the cache facade. -/
inductive Op (K V : Type) where
  | put (k : K) (v : V)
  | get (k : K)
  deriving DecidableEq, Repr

def step (c : LRUCache K V) : Op K V → Option (LRUCache K V)
  | .put k v => put c k v
  | .get k => (get c k).map (·.2)

def run (c : LRUCache K V) : List (Op K V) → Option (LRUCache K V)
  | [] => some c
  | op :: rest =>
    match step c op with
    | none => none
    | some c' => run c' rest

/-- Run a sequence of operations on a freshly constructed `Nat`/`Nat` cache. -/
def runK (cap : Nat) (ops : List (Op Nat Nat)) : Option (LRUCache Nat Nat) :=
  run (LRUCache.new Nat Nat cap) ops

/-- The recency chain: slot positions visited by following `next` links from a
starting pointer (the spec walks it from `tail` and expects to reach `head`
after exactly one step per remaining occupied slot).  Fuel bounds the walk so
it is total even on corrupted link structures. -/
def chainFrom (ns : List (Node K)) : Nat → Option Nat → List Nat
  | 0, _ => []
  | _, none => []
  | fuel + 1, some i =>
    i :: (match ns.get? i with
          | none => []
          | some nd => chainFrom ns fuel nd.next)

/-- Whether an operation touches key `k` (creation/update by `put`, read by `get`). -/
def touchesKey (k : K) : Op K V → Bool
  | .put k' _ => k' == k
  | .get k' => k' == k

/-- Index of the last operation in `ops` that touches `k`, if any. -/
def lastTouch (ops : List (Op K V)) (k : K) : Option Nat :=
  (List.range ops.length).foldl
    (fun acc i =>
      match ops.get? i with
      | some op => if touchesKey k op then some i else acc
      | none => acc)
    none

/-- State invariant maintained by the code on every reachable state.  It is
deliberately weaker than the spec's chain invariant (which the code violates):
it only ties the table to the slot store and keeps the pointers in bounds.
Note `tail = none` with a nonempty store is reachable, so no `tail_iff` field. -/
structure Inv (c : LRUCache K V) : Prop where
  nodup : (c.table.map Prod.fst).Nodup
  tab_len : c.table.length = c.nodes.length
  slot_key : ∀ j nd, c.nodes.get? j = some nd → (findTab c.table nd.key).map (·.2) = some j
  tab_slot : ∀ e ∈ c.table, (c.nodes.get? e.2.2).map Node.key = some e.1
  len_le : c.nodes.length ≤ c.size
  head_iff : c.head = none ↔ c.nodes = []
  head_lt : ∀ h, c.head = some h → h < c.nodes.length
  tail_lt : ∀ t, c.tail = some t → t < c.nodes.length
  next_lt : ∀ nd ∈ c.nodes, ∀ m, nd.next = some m → m < c.nodes.length

theorem findTab_eq_none_iff {t : List (K × V × Nat)} {k : K} :
    findTab t k = none ↔ ∀ e ∈ t, e.1 ≠ k := by
  induction t with
  | nil => simp [findTab]
  | cons e rest ih =>
    obtain ⟨k', vi⟩ := e
    by_cases h : k' = k
    · subst h
      simp [findTab]
    · simp [findTab, h, ih]

theorem findTab_mem {t : List (K × V × Nat)} {k : K} {vi : V × Nat}
    (h : findTab t k = some vi) : (k, vi) ∈ t := by
  induction t with
  | nil => simp [findTab] at h
  | cons e rest ih =>
    obtain ⟨k', vi'⟩ := e
    by_cases hk : k' = k
    · subst hk
      simp [findTab] at h
      simp [h]
    · simp [findTab, hk] at h
      exact List.mem_cons_of_mem _ (ih h)

theorem findTab_filter_ne {t : List (K × V × Nat)} {k k' : K} (h : k' ≠ k) :
    findTab (t.filter (fun e => decide (e.1 ≠ k))) k' = findTab t k' := by
  induction t with
  | nil => rfl
  | cons e rest ih =>
    obtain ⟨k0, vi⟩ := e
    rw [List.filter_cons]
    by_cases h0 : k0 = k
    · have h1 : ¬ k0 = k' := by
        subst h0
        exact fun hc => h hc.symm
      rw [if_neg (by simp [h0]), ih]
      simp only [findTab, if_neg h1]
    · rw [if_pos (by simp [h0])]
      simp only [findTab]
      by_cases h1 : k0 = k'
      · rw [if_pos h1, if_pos h1]
      · rw [if_neg h1, if_neg h1, ih]

theorem findTab_insertTab_self {t : List (K × V × Nat)} {k : K} {vi : V × Nat} :
    findTab (insertTab t k vi) k = some vi := by
  simp [insertTab, findTab]

theorem findTab_insertTab_ne {t : List (K × V × Nat)} {k k' : K} {vi : V × Nat}
    (h : k' ≠ k) : findTab (insertTab t k vi) k' = findTab t k' := by
  simp only [insertTab, findTab]
  rw [if_neg (fun hc => h hc.symm), findTab_filter_ne h]

theorem findTab_removeTab_self {t : List (K × V × Nat)} {k : K} :
    findTab (removeTab t k) k = none := by
  rw [removeTab, findTab_eq_none_iff]
  intro e he
  have := List.of_mem_filter he
  simpa using this

theorem findTab_removeTab_ne {t : List (K × V × Nat)} {k k' : K}
    (h : k' ≠ k) : findTab (removeTab t k) k' = findTab t k' :=
  findTab_filter_ne h

theorem filter_eq_self_of_findTab_none {t : List (K × V × Nat)} {k : K}
    (h : findTab t k = none) : t.filter (fun e => decide (e.1 ≠ k)) = t := by
  rw [findTab_eq_none_iff] at h
  apply List.filter_eq_self.mpr
  intro e he
  exact decide_eq_true (h e he)

theorem length_insertTab_of_none {t : List (K × V × Nat)} {k : K} {vi : V × Nat}
    (h : findTab t k = none) : (insertTab t k vi).length = t.length + 1 := by
  simp only [insertTab, filter_eq_self_of_findTab_none h, List.length_cons]

theorem length_filter_of_mem_nodup {t : List (K × V × Nat)} {k : K}
    (hn : (t.map Prod.fst).Nodup) (h : ∃ vi, findTab t k = some vi) :
    (t.filter (fun e => decide (e.1 ≠ k))).length + 1 = t.length := by
  induction t with
  | nil => simp [findTab] at h
  | cons e rest ih =>
    obtain ⟨k0, vi0⟩ := e
    simp only [List.map_cons, List.nodup_cons] at hn
    by_cases h0 : k0 = k
    · subst h0
      have hrest0 : findTab rest k0 = none := by
        rw [findTab_eq_none_iff]
        intro e he hc
        exact hn.1 (hc ▸ List.mem_map_of_mem Prod.fst he)
      have hrest := filter_eq_self_of_findTab_none hrest0
      rw [List.filter_cons, if_neg (by simp), hrest, List.length_cons]
    · obtain ⟨vi, hvi⟩ := h
      simp only [findTab, if_neg h0] at hvi
      have hih := ih hn.2 ⟨vi, hvi⟩
      rw [List.filter_cons, if_pos (by simp [h0]), List.length_cons, List.length_cons]
      omega

theorem length_insertTab_of_some {t : List (K × V × Nat)} {k : K} {vi vi' : V × Nat}
    (hn : (t.map Prod.fst).Nodup) (h : findTab t k = some vi') :
    (insertTab t k vi).length = t.length := by
  have := length_filter_of_mem_nodup hn ⟨vi', h⟩
  simp only [insertTab, List.length_cons]
  omega

theorem length_removeTab_of_some {t : List (K × V × Nat)} {k : K} {vi : V × Nat}
    (hn : (t.map Prod.fst).Nodup) (h : findTab t k = some vi) :
    (removeTab t k).length + 1 = t.length :=
  length_filter_of_mem_nodup hn ⟨vi, h⟩

theorem nodup_keys_filter {t : List (K × V × Nat)} {k : K}
    (hn : (t.map Prod.fst).Nodup) :
    ((t.filter (fun e => decide (e.1 ≠ k))).map Prod.fst).Nodup :=
  List.Nodup.sublist (List.Sublist.map Prod.fst (List.filter_sublist t)) hn

theorem nodup_keys_insertTab {t : List (K × V × Nat)} {k : K} {vi : V × Nat}
    (hn : (t.map Prod.fst).Nodup) :
    ((insertTab t k vi).map Prod.fst).Nodup := by
  simp only [insertTab, List.map_cons, List.nodup_cons]
  refine ⟨?_, nodup_keys_filter hn⟩
  intro hc
  obtain ⟨e, he, hek⟩ := List.mem_map.mp hc
  have := List.of_mem_filter he
  simp [hek] at this

theorem nodup_keys_removeTab {t : List (K × V × Nat)} {k : K}
    (hn : (t.map Prod.fst).Nodup) :
    ((removeTab t k).map Prod.fst).Nodup :=
  nodup_keys_filter hn

theorem mem_insertTab {t : List (K × V × Nat)} {k : K} {vi : V × Nat} {e : K × V × Nat}
    (h : e ∈ insertTab t k vi) : e = (k, vi) ∨ (e ∈ t ∧ e.1 ≠ k) := by
  simp only [insertTab, List.mem_cons] at h
  rcases h with h | h
  · exact Or.inl h
  · exact Or.inr ⟨List.mem_of_mem_filter h, by simpa using List.of_mem_filter h⟩

theorem mem_removeTab {t : List (K × V × Nat)} {k : K} {e : K × V × Nat}
    (h : e ∈ removeTab t k) : e ∈ t ∧ e.1 ≠ k :=
  ⟨List.mem_of_mem_filter h, by simpa using List.of_mem_filter h⟩

theorem lt_length_of_get?_eq_some {ns : List (Node K)} {j : Nat} {nd : Node K}
    (h : ns.get? j = some nd) : j < ns.length := by
  by_contra hc
  rw [List.get?_eq_none.mpr (Nat.le_of_not_lt hc)] at h
  cases h

theorem get?_map_key_set {ns : List (Node K)} {p : Nat} {nd : Node K}
    (h : ns.get? p = some nd) (nx : Option Nat) (j : Nat) :
    ((ns.set p ⟨nd.key, nx⟩).get? j).map Node.key = (ns.get? j).map Node.key := by
  by_cases hj : p = j
  · subst hj
    rw [List.get?_set_eq_of_lt _ (lt_length_of_get?_eq_some h), h]
    rfl
  · rw [List.get?_set_ne _ _ hj]

theorem setNext_eq_some {ns ns' : List (Node K)} {i : Nat} {nx : Option Nat}
    (h : setNext ns i nx = some ns') :
    ∃ nd, ns.get? i = some nd ∧ ns' = ns.set i ⟨nd.key, nx⟩ := by
  unfold setNext at h
  cases hg : ns.get? i with
  | none => rw [hg] at h; cases h
  | some nd =>
    rw [hg] at h
    exact ⟨nd, rfl, (Option.some_inj.mp h).symm⟩

theorem setNext_of_lt {ns : List (Node K)} {i : Nat} (h : i < ns.length) (nx : Option Nat) :
    setNext ns i nx = some (ns.set i ⟨(ns.get ⟨i, h⟩).key, nx⟩) := by
  unfold setNext
  rw [List.get?_eq_get h]

theorem setNode_eq_some {ns ns' : List (Node K)} {i : Nat} {nd : Node K}
    (h : setNode ns i nd = some ns') : i < ns.length ∧ ns' = ns.set i nd := by
  unfold setNode at h
  by_cases hi : i < ns.length
  · rw [if_pos hi] at h
    exact ⟨hi, (Option.some_inj.mp h).symm⟩
  · rw [if_neg hi] at h
    cases h

theorem tailFix_none {c : LRUCache K V} {i : Nat} (h : c.tail = none) :
    tailFix c i = some c := by
  simp [tailFix, h]

theorem tailFix_other {c : LRUCache K V} {i tl : Nat} (h : c.tail = some tl)
    (hne : tl ≠ i) : tailFix c i = some c := by
  simp [tailFix, h, hne]

theorem tailFix_hit {c : LRUCache K V} {i : Nat} {nd : Node K} (h : c.tail = some i)
    (hg : c.nodes.get? i = some nd) :
    tailFix c i = some { c with tail := nd.next } := by
  have hg' : c.nodes[i]? = some nd := by rw [← List.get?_eq_getElem?]; exact hg
  simp [tailFix, h, hg']

theorem promote_eq {c : LRUCache K V} {i h0 : Nat} {nd : Node K}
    (hh : c.head = some h0) (hg : c.nodes.get? h0 = some nd) :
    promote c i =
      some { c with nodes := c.nodes.set h0 ⟨nd.key, some i⟩, head := some i } := by
  have hg' : c.nodes[h0]? = some nd := by rw [← List.get?_eq_getElem?]; exact hg
  simp [promote, hh, setNext, hg']

/-- Characterization of a successful `tailFix`: everything except `tail` is
unchanged, and the new `tail`, if present, is either the old one or the `next`
link of some node. -/
theorem tailFix_spec {c : LRUCache K V} {i : Nat}
    (htl : ∀ t, c.tail = some t → t < c.nodes.length) :
    ∃ c', tailFix c i = some c'
      ∧ c'.table = c.table ∧ c'.nodes = c.nodes ∧ c'.head = c.head ∧ c'.size = c.size
      ∧ (∀ t', c'.tail = some t' → c.tail = some t' ∨ ∃ nd ∈ c.nodes, nd.next = some t') := by
  cases ht : c.tail with
  | none =>
    exact ⟨c, tailFix_none ht, rfl, rfl, rfl, rfl, fun t' h' => Or.inl (ht ▸ h')⟩
  | some tl =>
    by_cases hti : tl = i
    · subst hti
      have hg := List.get?_eq_get (htl tl ht)
      refine ⟨_, tailFix_hit ht hg, rfl, rfl, rfl, rfl, fun t' h' => ?_⟩
      exact Or.inr ⟨_, List.get?_mem hg, h'⟩
    · exact ⟨c, tailFix_other ht hti, rfl, rfl, rfl, rfl, fun t' h' => Or.inl (ht ▸ h')⟩

/-- Characterization of a successful `promote`: the table, tail and size are
unchanged, the head becomes `i`, node keys are untouched, and the only new
forward link is `some i`. -/
theorem promote_spec {c : LRUCache K V} {i h0 : Nat}
    (hh : c.head = some h0) (hlt : h0 < c.nodes.length) :
    ∃ c', promote c i = some c'
      ∧ c'.table = c.table ∧ c'.tail = c.tail ∧ c'.size = c.size
      ∧ c'.head = some i
      ∧ c'.nodes.length = c.nodes.length
      ∧ (∀ j, (c'.nodes.get? j).map Node.key = (c.nodes.get? j).map Node.key)
      ∧ (∀ nd ∈ c'.nodes, nd ∈ c.nodes ∨ nd.next = some i) := by
  have hg := List.get?_eq_get hlt
  refine ⟨_, promote_eq hh hg, rfl, rfl, rfl, rfl, by simp, ?_, ?_⟩
  · intro j
    exact get?_map_key_set hg (some i) j
  · intro nd hnd
    rcases List.mem_or_eq_of_mem_set hnd with h | h
    · exact Or.inl h
    · exact Or.inr (by rw [h])

/-- Rebuild the invariant for a state equal to `c` except possibly its `tail`. -/
theorem inv_congr {c c' : LRUCache K V} (hI : Inv c)
    (htab : c'.table = c.table) (hnodes : c'.nodes = c.nodes)
    (hhead : c'.head = c.head) (hsize : c'.size = c.size)
    (htail : ∀ t', c'.tail = some t' → t' < c.nodes.length) : Inv c' := by
  constructor
  · rw [htab]
    exact hI.nodup
  · rw [htab, hnodes]
    exact hI.tab_len
  · intro j nd hj
    rw [hnodes] at hj
    rw [htab]
    exact hI.slot_key j nd hj
  · intro e he
    rw [hnodes]
    exact hI.tab_slot e (htab ▸ he)
  · rw [hnodes, hsize]
    exact hI.len_le
  · rw [hhead, hnodes]
    exact hI.head_iff
  · intro h0 hh
    rw [hhead] at hh
    rw [hnodes]
    exact hI.head_lt h0 hh
  · intro t ht
    rw [hnodes]
    exact htail t ht
  · intro nd hnd m hm
    rw [hnodes] at hnd ⊢
    exact hI.next_lt nd hnd m hm

/-- Rebuild the invariant after a head promotion to position `i`: the table,
tail and size are unchanged, node keys are pointwise unchanged, and every node
is either an old node or has `next = some i`. -/
theorem inv_after_promote {c c' : LRUCache K V} {i : Nat}
    (hI : Inv c) (hilt : i < c.nodes.length)
    (htab : c'.table = c.table) (htail : c'.tail = c.tail) (hsize : c'.size = c.size)
    (hhead : c'.head = some i)
    (hlen : c'.nodes.length = c.nodes.length)
    (hkeys : ∀ j, (c'.nodes.get? j).map Node.key = (c.nodes.get? j).map Node.key)
    (hmem : ∀ nd ∈ c'.nodes, nd ∈ c.nodes ∨ nd.next = some i) : Inv c' := by
  constructor
  · rw [htab]
    exact hI.nodup
  · rw [htab, hlen]
    exact hI.tab_len
  · intro j nd hj
    have hk := hkeys j
    rw [hj] at hk
    cases hg : c.nodes.get? j with
    | none => rw [hg] at hk; cases hk
    | some nd0 =>
      rw [hg] at hk
      have hknd : nd.key = nd0.key := by simpa using hk
      rw [htab, hknd]
      exact hI.slot_key j nd0 hg
  · intro e he
    rw [hkeys e.2.2]
    exact hI.tab_slot e (htab ▸ he)
  · rw [hlen, hsize]
    exact hI.len_le
  · constructor
    · intro h
      rw [hhead] at h
      cases h
    · intro h
      exfalso
      have h0 : c.nodes.length = 0 := by
        rw [← hlen, h]
        rfl
      omega
  · intro h0 hh
    rw [hhead] at hh
    rw [hlen, ← Option.some_inj.mp hh]
    exact hilt
  · intro t ht
    rw [htail] at ht
    rw [hlen]
    exact hI.tail_lt t ht
  · intro nd hnd m hm
    rw [hlen]
    rcases hmem nd hnd with h | h
    · exact hI.next_lt nd h m hm
    · rw [h] at hm
      rw [← Option.some_inj.mp hm]
      exact hilt

theorem head_some_of_nonempty {c : LRUCache K V} (hI : Inv c) {i : Nat} {nd : Node K}
    (hg : c.nodes.get? i = some nd) : ∃ h0, c.head = some h0 ∧ h0 < c.nodes.length := by
  cases hh : c.head with
  | none =>
    rw [hI.head_iff.mp hh] at hg
    simp at hg
  | some h0 => exact ⟨h0, rfl, hI.head_lt h0 hh⟩

theorem slot_of_findTab {c : LRUCache K V} (hI : Inv c) {k : K} {v0 : V} {i : Nat}
    (hf : findTab c.table k = some (v0, i)) :
    ∃ nd, c.nodes.get? i = some nd ∧ nd.key = k ∧ i < c.nodes.length := by
  have hts := hI.tab_slot _ (findTab_mem hf)
  cases hg : c.nodes.get? i with
  | none =>
    rw [hg] at hts
    cases hts
  | some nd =>
    rw [hg] at hts
    exact ⟨nd, rfl, by simpa using hts, lt_length_of_get?_eq_some hg⟩

/-- The hit branch of `put`: under the invariant it always succeeds, replaces
the table binding of `k` in place (same position `i`), promotes `i` to head,
and changes no node keys and no lengths. -/
theorem put_hit_spec {c : LRUCache K V} {k : K} {v0 : V} {i : Nat} (v : V)
    (hI : Inv c) (hf : findTab c.table k = some (v0, i)) :
    ∃ c', put c k v = some c'
      ∧ c'.table = insertTab c.table k (v, i)
      ∧ c'.head = some i
      ∧ c'.size = c.size
      ∧ c'.nodes.length = c.nodes.length
      ∧ Inv c' := by
  obtain ⟨ndi, hgi, hki, hilt⟩ := slot_of_findTab hI hf
  obtain ⟨h0, hh0, hh0lt⟩ := head_some_of_nonempty hI hgi
  set cA : LRUCache K V := { c with table := insertTab c.table k (v, i) } with hcA
  have hIA : Inv cA := by
    constructor
    · exact nodup_keys_insertTab hI.nodup
    · rw [show cA.table = insertTab c.table k (v, i) from rfl,
          length_insertTab_of_some hI.nodup hf]
      exact hI.tab_len
    · intro j nd hj
      by_cases hk : nd.key = k
      · have hsk := hI.slot_key j nd hj
        rw [hk, hf] at hsk
        have : i = j := by simpa using hsk
        rw [hk, show cA.table = insertTab c.table k (v, i) from rfl,
            findTab_insertTab_self]
        simpa using this
      · rw [show cA.table = insertTab c.table k (v, i) from rfl, findTab_insertTab_ne hk]
        exact hI.slot_key j nd hj
    · intro e he
      rcases mem_insertTab he with he' | ⟨he', _⟩
      · rw [he']
        rw [show ((k, v, i) : K × V × Nat).2.2 = i from rfl, hgi]
        simpa using hki
      · exact hI.tab_slot e he'
    · exact hI.len_le
    · exact hI.head_iff
    · exact hI.head_lt
    · exact hI.tail_lt
    · exact hI.next_lt
  obtain ⟨c1, h1, htab1, hnodes1, hhead1, hsize1, htail1⟩ :=
    @tailFix_spec K V _ cA i hI.tail_lt
  have hI1 : Inv c1 := by
    refine inv_congr hIA htab1 hnodes1 hhead1 hsize1 ?_
    intro t' ht'
    rcases htail1 t' ht' with h | ⟨nd, hnd, hnx⟩
    · exact hI.tail_lt t' h
    · exact hI.next_lt nd hnd t' hnx
  have hh1 : c1.head = some h0 := by rw [hhead1]; exact hh0
  have hh1lt : h0 < c1.nodes.length := by rw [hnodes1]; exact hh0lt
  obtain ⟨c2, h2, htab2, htail2, hsize2, hhead2, hlen2, hkeys2, hmem2⟩ :=
    @promote_spec K V _ c1 i h0 hh1 hh1lt
  have hilt1 : i < c1.nodes.length := by rw [hnodes1]; exact hilt
  have hI2 : Inv c2 :=
    inv_after_promote hI1 hilt1 htab2 htail2 hsize2 hhead2 hlen2 hkeys2 hmem2
  refine ⟨c2, ?_, ?_, hhead2, ?_, ?_, hI2⟩
  · simp only [put, hf]
    rw [← hcA, h1]
    exact h2
  · rw [htab2, htab1]
  · rw [hsize2, hsize1]
  · rw [hlen2, hnodes1]

/-- The hit branch of `get`: under the invariant it always succeeds, returns
the stored value, leaves the table untouched and promotes `i` to head. -/
theorem get_hit_spec {c : LRUCache K V} {k : K} {v0 : V} {i : Nat}
    (hI : Inv c) (hf : findTab c.table k = some (v0, i)) :
    ∃ c', get c k = some (some v0, c')
      ∧ c'.table = c.table
      ∧ c'.size = c.size
      ∧ c'.head = some i
      ∧ c'.nodes.length = c.nodes.length
      ∧ Inv c' := by
  obtain ⟨ndi, hgi, hki, hilt⟩ := slot_of_findTab hI hf
  obtain ⟨h0, hh0, hh0lt⟩ := head_some_of_nonempty hI hgi
  obtain ⟨c1, h1, htab1, hnodes1, hhead1, hsize1, htail1⟩ :=
    @tailFix_spec K V _ c i hI.tail_lt
  have hI1 : Inv c1 := by
    refine inv_congr hI htab1 hnodes1 hhead1 hsize1 ?_
    intro t' ht'
    rcases htail1 t' ht' with h | ⟨nd, hnd, hnx⟩
    · exact hI.tail_lt t' h
    · exact hI.next_lt nd hnd t' hnx
  have hh1 : c1.head = some h0 := by rw [hhead1]; exact hh0
  have hh1lt : h0 < c1.nodes.length := by rw [hnodes1]; exact hh0lt
  obtain ⟨c2, h2, htab2, htail2, hsize2, hhead2, hlen2, hkeys2, hmem2⟩ :=
    @promote_spec K V _ c1 i h0 hh1 hh1lt
  have hilt1 : i < c1.nodes.length := by rw [hnodes1]; exact hilt
  have hI2 : Inv c2 :=
    inv_after_promote hI1 hilt1 htab2 htail2 hsize2 hhead2 hlen2 hkeys2 hmem2
  have htabc2 : c2.table = c.table := by rw [htab2, htab1]
  refine ⟨c2, ?_, htabc2, by rw [hsize2, hsize1], hhead2, by rw [hlen2, hnodes1], hI2⟩
  simp only [get, hf, h1, h2, htabc2]
  rfl

/-- The append branch of `put` (miss while under capacity): it succeeds under
the invariant, stores `k` at the fresh position `c.nodes.length` and makes it
the head. -/
theorem appendNode_spec {c : LRUCache K V} {k : K} (v : V)
    (hI : Inv c) (hmiss : findTab c.table k = none) (hlt : c.nodes.length < c.size) :
    ∃ c', appendNode c k v = some c'
      ∧ c'.table = insertTab c.table k (v, c.nodes.length)
      ∧ c'.head = some c.nodes.length
      ∧ c'.size = c.size
      ∧ c'.nodes.length = c.nodes.length + 1
      ∧ Inv c' := by
  by_cases hempty : c.nodes.isEmpty
  · have hnil : c.nodes = [] := List.isEmpty_iff.mp hempty
    have hlen0 : c.nodes.length = 0 := by rw [hnil]; rfl
    have htnil : c.table = [] := by
      have h := hI.tab_len
      rw [hlen0] at h
      exact List.length_eq_zero.mp h
    refine ⟨⟨insertTab c.table k (v, 0), [⟨k, none⟩], some 0, some 0, c.size⟩,
      ?_, ?_, ?_, rfl, ?_, ?_⟩
    · simp only [appendNode, hempty, if_true]
    · show insertTab c.table k (v, 0) = insertTab c.table k (v, c.nodes.length)
      rw [hlen0]
    · show some 0 = some c.nodes.length
      rw [hlen0]
    · show ([⟨k, none⟩] : List (Node K)).length = c.nodes.length + 1
      rw [hlen0]
      rfl
    · constructor
      · exact nodup_keys_insertTab hI.nodup
      · show (insertTab c.table k (v, 0)).length = ([⟨k, none⟩] : List (Node K)).length
        rw [length_insertTab_of_none hmiss, htnil]
        rfl
      · intro j nd hj
        have hj' : ([⟨k, none⟩] : List (Node K)).get? j = some nd := hj
        cases j with
        | zero =>
          have hnd : nd = ⟨k, none⟩ := by simpa using hj'.symm
          show (findTab (insertTab c.table k (v, 0)) nd.key).map (fun p => p.2) = some 0
          rw [hnd, show (⟨k, none⟩ : Node K).key = k from rfl, findTab_insertTab_self]
          rfl
        | succ j => simp at hj'
      · intro e he
        have he' : e ∈ insertTab c.table k (v, 0) := he
        rcases mem_insertTab he' with heq | ⟨hmem, _⟩
        · rw [heq]
          rfl
        · rw [htnil] at hmem
          cases hmem
      · show ([⟨k, none⟩] : List (Node K)).length ≤ c.size
        rw [hlen0] at hlt
        simpa using hlt
      · simp
      · intro h0 hh
        have hh' : some 0 = some h0 := hh
        have : h0 = 0 := by simpa using hh'.symm
        rw [this]
        simp
      · intro t ht
        have ht' : some 0 = some t := ht
        have : t = 0 := by simpa using ht'.symm
        rw [this]
        simp
      · intro nd hnd m hm
        have hnd' : nd ∈ ([⟨k, none⟩] : List (Node K)) := hnd
        have : nd = ⟨k, none⟩ := by simpa using hnd'
        rw [this] at hm
        cases hm
  · have hne : c.nodes ≠ [] := fun h => by simp [h] at hempty
    have hh0ex : ∃ h0, c.head = some h0 := by
      cases hh : c.head with
      | none => exact absurd (hI.head_iff.mp hh) hne
      | some h0 => exact ⟨h0, rfl⟩
    obtain ⟨h0, hh0⟩ := hh0ex
    have hh0lt : h0 < c.nodes.length := hI.head_lt h0 hh0
    set newI := c.nodes.length with hnewI
    set ns0 : List (Node K) := c.nodes ++ [⟨k, none⟩] with hns0
    have hns0len : ns0.length = c.nodes.length + 1 := by
      rw [hns0]
      simp
    have hlt0 : h0 < ns0.length := by omega
    have hgh : ns0.get? h0 = some (ns0.get ⟨h0, hlt0⟩) := List.get?_eq_get hlt0
    set ns : List (Node K) := ns0.set h0 ⟨(ns0.get ⟨h0, hlt0⟩).key, some newI⟩ with hns
    have hnslen : ns.length = c.nodes.length + 1 := by
      rw [hns, List.length_set, hns0len]
    have hkeysns : ∀ j, (ns.get? j).map Node.key = (ns0.get? j).map Node.key := by
      intro j
      rw [hns]
      exact get?_map_key_set hgh (some newI) j
    have hns0get : ∀ j, j < c.nodes.length → ns0.get? j = c.nodes.get? j := by
      intro j hj
      rw [hns0]
      exact List.get?_append hj
    have hns0last : ns0.get? c.nodes.length = some ⟨k, none⟩ := by
      rw [hns0]
      exact List.get?_concat_length _ _
    have happ : appendNode c k v =
        some ⟨insertTab c.table k (v, newI), ns, some newI, c.tail, c.size⟩ := by
      simp only [appendNode, hempty, if_false, Bool.false_eq_true, hh0]
      rw [show setNext ns0 h0 (some newI) = some ns from by rw [setNext_of_lt hlt0, hns]]
    refine ⟨_, happ, rfl, rfl, rfl, hnslen, ?_⟩
    constructor
    · exact nodup_keys_insertTab hI.nodup
    · show (insertTab c.table k (v, newI)).length = ns.length
      rw [length_insertTab_of_none hmiss, hI.tab_len, hnslen]
    · intro j nd hj
      have hj' : ns.get? j = some nd := hj
      show (findTab (insertTab c.table k (v, newI)) nd.key).map (fun p => p.2) = some j
      have hkj := hkeysns j
      rw [hj'] at hkj
      by_cases hjlt : j < c.nodes.length
      · rw [hns0get j hjlt] at hkj
        cases hgc : c.nodes.get? j with
        | none => rw [hgc] at hkj; cases hkj
        | some nd0 =>
          rw [hgc] at hkj
          have hknd : nd.key = nd0.key := by simpa using hkj
          have hkne : nd0.key ≠ k := by
            intro hc
            have hsk := hI.slot_key j nd0 hgc
            rw [hc, hmiss] at hsk
            cases hsk
          rw [hknd, findTab_insertTab_ne hkne]
          exact hI.slot_key j nd0 hgc
      · by_cases hjeq : j = c.nodes.length
        · rw [hjeq, hns0last] at hkj
          have hknd : nd.key = k := by simpa using hkj
          rw [hknd, findTab_insertTab_self]
          rw [hjeq]
          rfl
        · have hnone : ns0.get? j = none := by
            rw [List.get?_eq_none]
            omega
          rw [hnone] at hkj
          cases hkj
    · intro e he
      have he' : e ∈ insertTab c.table k (v, newI) := he
      show (ns.get? e.2.2).map Node.key = some e.1
      rcases mem_insertTab he' with heq | ⟨hmem, _⟩
      · rw [heq, show ((k, v, newI) : K × V × Nat).2.2 = newI from rfl,
          hkeysns newI, hns0last]
        rfl
      · have hold := hI.tab_slot e hmem
        have hjlt : e.2.2 < c.nodes.length := by
          cases hgc : c.nodes.get? e.2.2 with
          | none => rw [hgc] at hold; cases hold
          | some nd0 => exact lt_length_of_get?_eq_some hgc
        rw [hkeysns e.2.2, hns0get _ hjlt]
        exact hold
    · show ns.length ≤ c.size
      omega
    · constructor
      · intro h
        cases h
      · intro h
        exfalso
        have hl : ns.length = 0 := by
          rw [show (⟨insertTab c.table k (v, newI), ns, some newI, c.tail,
            c.size⟩ : LRUCache K V).nodes = ns from rfl] at h
          rw [h]
          rfl
        omega
    · intro hh hhh
      have hhh' : some newI = some hh := hhh
      have : hh = newI := by simpa using hhh'.symm
      show hh < ns.length
      omega
    · intro t ht
      have ht' : c.tail = some t := ht
      have := hI.tail_lt t ht'
      show t < ns.length
      omega
    · intro nd hnd m hm
      have hnd' : nd ∈ ns := hnd
      show m < ns.length
      rw [hns] at hnd'
      rcases List.mem_or_eq_of_mem_set hnd' with h | h
      · rw [hns0] at h
        rcases List.mem_append.mp h with h | h
        · have := hI.next_lt nd h m hm
          omega
        · have : nd = ⟨k, none⟩ := by simpa using h
          rw [this] at hm
          cases hm
      · rw [h] at hm
        have : m = newI := by simpa using hm.symm
        omega

/-- Flattened equation for the eviction branch once `head`, `tail` and the
tail node are known. -/
theorem evictPut_eq {c : LRUCache K V} {k : K} {v : V} {h0 tl : Nat} {tlNode : Node K}
    (hh : c.head = some h0) (ht : c.tail = some tl) (hg : c.nodes.get? tl = some tlNode) :
    evictPut c k v =
      match setNext c.nodes h0 (some tl) with
      | none => none
      | some ns1 =>
        match ns1.get? tl with
        | none => none
        | some tlNode2 =>
          match setNode ns1 tl ⟨k, none⟩ with
          | none => none
          | some ns2 =>
            some ⟨insertTab (removeTab c.table tlNode.key) k (v, tl), ns2,
                  some tl, tlNode2.next, c.size⟩ := by
  simp only [evictPut, hh, ht, hg]

/-- The eviction branch of `put`: a successful execution preserves the
invariant, keeps the store size and slot count, evicts the tail slot's key and
re-binds `k` to that slot as the new head.  (Success is *not* guaranteed in
general: `tail` can be absent on reachable nonempty states, the C3/C6 bug.) -/
theorem evictPut_spec {c c' : LRUCache K V} {k : K} {v : V}
    (hI : Inv c) (hmiss : findTab c.table k = none)
    (h : evictPut c k v = some c') :
    Inv c' ∧ c'.size = c.size ∧ c'.nodes.length = c.nodes.length
      ∧ ∃ tl, findTab c'.table k = some (v, tl) ∧ c'.head = some tl
        ∧ tl < c'.nodes.length := by
  cases hh : c.head with
  | none =>
    rw [show evictPut c k v = none from by simp [evictPut, hh]] at h
    cases h
  | some h0 =>
  cases ht : c.tail with
  | none =>
    rw [show evictPut c k v = none from by simp [evictPut, hh, ht]] at h
    cases h
  | some tl =>
  cases hg : c.nodes.get? tl with
  | none =>
    have hg' : c.nodes[tl]? = none := by rw [← List.get?_eq_getElem?]; exact hg
    rw [show evictPut c k v = none from by simp [evictPut, hh, ht, hg']] at h
    cases h
  | some tlNode =>
  rw [evictPut_eq hh ht hg] at h
  split at h
  · cases h
  rename_i ns1 hs1
  split at h
  · cases h
  rename_i tlNode2 hg2
  split at h
  · cases h
  rename_i ns2 hsn
  have hc' := (Option.some_inj.mp h).symm
  subst hc'
  obtain ⟨ndh, hgh, hns1⟩ := setNext_eq_some hs1
  obtain ⟨htlns1, hns2⟩ := setNode_eq_some hsn
  have htl_lt : tl < c.nodes.length := lt_length_of_get?_eq_some hg
  have hfKtl : ∃ vtl, findTab c.table tlNode.key = some (vtl, tl) := by
    have hsk := hI.slot_key tl tlNode hg
    cases hft : findTab c.table tlNode.key with
    | none => rw [hft] at hsk; cases hsk
    | some vj =>
      obtain ⟨vtl, j⟩ := vj
      rw [hft] at hsk
      have hj : j = tl := by simpa using hsk
      subst hj
      exact ⟨vtl, rfl⟩
  obtain ⟨vtl, hftl⟩ := hfKtl
  have hkne : k ≠ tlNode.key := by
    intro hc
    rw [← hc] at hftl
    rw [hmiss] at hftl
    cases hftl
  have hlen1 : ns1.length = c.nodes.length := by
    rw [hns1, List.length_set]
  have hlen2 : ns2.length = c.nodes.length := by
    rw [hns2, List.length_set, hlen1]
  have hkeys1 : ∀ j, (ns1.get? j).map Node.key = (c.nodes.get? j).map Node.key := by
    intro j
    rw [hns1]
    exact get?_map_key_set hgh (some tl) j
  have hkeys2 : ∀ j, j ≠ tl → (ns2.get? j).map Node.key = (c.nodes.get? j).map Node.key := by
    intro j hj
    rw [hns2, List.get?_set_ne _ _ (fun hc => hj hc.symm)]
    exact hkeys1 j
  have hget_tl : ns2.get? tl = some ⟨k, none⟩ := by
    rw [hns2]
    exact List.get?_set_eq_of_lt _ htlns1
  have hremk : findTab (removeTab c.table tlNode.key) k = none := by
    rw [findTab_removeTab_ne hkne]
    exact hmiss
  have hftt : findTab (insertTab (removeTab c.table tlNode.key) k (v, tl)) k
      = some (v, tl) := findTab_insertTab_self
  refine ⟨?_, rfl, hlen2, tl, hftt, rfl, ?_⟩
  swap
  · show tl < ns2.length
    omega
  constructor
  · exact nodup_keys_insertTab (nodup_keys_removeTab hI.nodup)
  · show (insertTab (removeTab c.table tlNode.key) k (v, tl)).length = ns2.length
    have e1 := @length_insertTab_of_none K V _ (removeTab c.table tlNode.key) k (v, tl) hremk
    have e2 := length_removeTab_of_some hI.nodup hftl
    have e3 := hI.tab_len
    omega
  · intro j nd hj
    have hj' : ns2.get? j = some nd := hj
    show (findTab (insertTab (removeTab c.table tlNode.key) k (v, tl)) nd.key).map
        (fun p => p.2) = some j
    by_cases hjtl : j = tl
    · subst hjtl
      rw [hget_tl] at hj'
      have hnd : nd = ⟨k, none⟩ := by simpa using hj'.symm
      rw [hnd, show (⟨k, none⟩ : Node K).key = k from rfl, hftt]
      rfl
    · have hkj := hkeys2 j hjtl
      rw [hj'] at hkj
      cases hgc : c.nodes.get? j with
      | none => rw [hgc] at hkj; cases hkj
      | some nd0 =>
        rw [hgc] at hkj
        have hknd : nd.key = nd0.key := by simpa using hkj
        have hk1 : nd0.key ≠ k := by
          intro hc
          have hsk := hI.slot_key j nd0 hgc
          rw [hc, hmiss] at hsk
          cases hsk
        have hk2 : nd0.key ≠ tlNode.key := by
          intro hc
          have hsk := hI.slot_key j nd0 hgc
          rw [hc, hftl] at hsk
          have : tl = j := by simpa using hsk
          exact hjtl this.symm
        rw [hknd, findTab_insertTab_ne hk1, findTab_removeTab_ne hk2]
        exact hI.slot_key j nd0 hgc
  · intro e he
    have he' : e ∈ insertTab (removeTab c.table tlNode.key) k (v, tl) := he
    show (ns2.get? e.2.2).map Node.key = some e.1
    rcases mem_insertTab he' with heq | ⟨hmem, hek⟩
    · rw [heq, show ((k, v, tl) : K × V × Nat).2.2 = tl from rfl, hget_tl]
      rfl
    · obtain ⟨hmem', hektl⟩ := mem_removeTab hmem
      have hold := hI.tab_slot e hmem'
      have hjtl : e.2.2 ≠ tl := by
        intro hc
        rw [hc, hg] at hold
        have hkey : tlNode.key = e.1 := by simpa using hold
        exact hektl hkey.symm
      rw [hkeys2 e.2.2 hjtl]
      exact hold
  · show ns2.length ≤ c.size
    have := hI.len_le
    omega
  · constructor
    · intro hx
      cases hx
    · intro hx
      exfalso
      have : ns2.length = 0 := by
        rw [show (⟨insertTab (removeTab c.table tlNode.key) k (v, tl), ns2, some tl,
          tlNode2.next, c.size⟩ : LRUCache K V).nodes = ns2 from rfl] at hx
        rw [hx]
        rfl
      omega
  · intro hhx hxx
    have hxx' : some tl = some hhx := hxx
    have : hhx = tl := by simpa using hxx'.symm
    show hhx < ns2.length
    omega
  · intro t htt
    have htt' : tlNode2.next = some t := htt
    show t < ns2.length
    have hmem2 : tlNode2 ∈ ns1 := List.get?_mem hg2
    rw [hns1] at hmem2
    rcases List.mem_or_eq_of_mem_set hmem2 with hmm | hmm
    · have := hI.next_lt tlNode2 hmm t htt'
      omega
    · rw [hmm] at htt'
      have : t = tl := by simpa using htt'.symm
      omega
  · intro nd hnd m hm
    have hnd' : nd ∈ ns2 := hnd
    show m < ns2.length
    rw [hns2] at hnd'
    rcases List.mem_or_eq_of_mem_set hnd' with hmm | hmm
    · rw [hns1] at hmm
      rcases List.mem_or_eq_of_mem_set hmm with hmm' | hmm'
      · have := hI.next_lt nd hmm' m hm
        omega
      · rw [hmm'] at hm
        have : m = tl := by simpa using hm.symm
        omega
    · rw [hmm] at hm
      cases hm

/-- A successful `put` preserves the invariant and the capacity, and leaves
`k` bound in the table at the slot that became the head. -/
theorem put_inv {c c' : LRUCache K V} {k : K} {v : V}
    (hI : Inv c) (h : put c k v = some c') :
    Inv c' ∧ c'.size = c.size
      ∧ ∃ i, findTab c'.table k = some (v, i) ∧ c'.head = some i
        ∧ i < c'.nodes.length := by
  cases hf : findTab c.table k with
  | some vi =>
    obtain ⟨v0, i⟩ := vi
    obtain ⟨c2, h2, htab2, hhead2, hsize2, hlen2, hI2⟩ := put_hit_spec v hI hf
    rw [h2] at h
    have hcc := Option.some_inj.mp h
    subst hcc
    refine ⟨hI2, hsize2, i, ?_, hhead2, ?_⟩
    · rw [htab2]
      exact findTab_insertTab_self
    · obtain ⟨nd, hgi, _, hilt⟩ := slot_of_findTab hI hf
      omega
  | none =>
    by_cases hlt : c.nodes.length < c.size
    · have hput : put c k v = appendNode c k v := by simp [put, hf, hlt]
      rw [hput] at h
      obtain ⟨cA, hA, htabA, hheadA, hsizeA, hlenA, hIA⟩ := appendNode_spec v hI hf hlt
      rw [hA] at h
      have hcc := Option.some_inj.mp h
      subst hcc
      refine ⟨hIA, hsizeA, c.nodes.length, ?_, hheadA, ?_⟩
      · rw [htabA]
        exact findTab_insertTab_self
      · omega
    · have hput : put c k v = evictPut c k v := by simp [put, hf, hlt]
      rw [hput] at h
      obtain ⟨hI', hsize', hlen', tl, hft', hhead', htl'⟩ := evictPut_spec hI hf h
      exact ⟨hI', hsize', tl, hft', hhead', htl'⟩

/-- A successful `get` preserves the invariant, never changes the table or the
capacity, and returns exactly the table lookup's value. -/
theorem get_inv {c c' : LRUCache K V} {k : K} {o : Option V}
    (hI : Inv c) (h : get c k = some (o, c')) :
    Inv c' ∧ c'.table = c.table ∧ c'.size = c.size
      ∧ o = (findTab c.table k).map (fun p => p.1) := by
  cases hf : findTab c.table k with
  | none =>
    have hmiss : get c k = some (none, c) := by simp [get, hf]
    rw [hmiss] at h
    have hp := Option.some_inj.mp h
    have ho : none = o := congrArg Prod.fst hp
    have hc : c = c' := congrArg Prod.snd hp
    subst hc
    refine ⟨hI, rfl, rfl, ?_⟩
    rw [← ho]
    rfl
  | some vi =>
    obtain ⟨v0, i⟩ := vi
    obtain ⟨c2, h2, htab2, hsize2, hhead2, hlen2, hI2⟩ := get_hit_spec hI hf
    rw [h2] at h
    have hp := Option.some_inj.mp h
    have ho : some v0 = o := congrArg Prod.fst hp
    have hc : c2 = c' := congrArg Prod.snd hp
    subst hc
    refine ⟨hI2, htab2, hsize2, ?_⟩
    rw [← ho]
    rfl

/-- The invariant holds for every freshly constructed cache. -/
theorem inv_new {cap : Nat} : Inv (LRUCache.new K V cap) := by
  constructor
  · simp [LRUCache.new]
  · rfl
  · intro j nd hj
    simp [LRUCache.new] at hj
  · intro e he
    simp [LRUCache.new] at he
  · simp [LRUCache.new]
  · simp [LRUCache.new]
  · intro h0 hh
    simp [LRUCache.new] at hh
  · intro t ht
    simp [LRUCache.new] at ht
  · intro nd hnd
    simp [LRUCache.new] at hnd

theorem step_inv {c c' : LRUCache K V} {op : Op K V}
    (hI : Inv c) (h : step c op = some c') : Inv c' ∧ c'.size = c.size := by
  cases op with
  | put k v =>
    have h' : put c k v = some c' := h
    obtain ⟨hI', hs, _⟩ := put_inv hI h'
    exact ⟨hI', hs⟩
  | get k =>
    have h' : (get c k).map (fun p => p.2) = some c' := h
    cases hg : get c k with
    | none =>
      rw [hg] at h'
      cases h'
    | some p =>
      rw [hg] at h'
      obtain ⟨o, c2⟩ := p
      have hcc : c2 = c' := by simpa using h'
      subst hcc
      obtain ⟨hI', htab, hs, _⟩ := get_inv hI hg
      exact ⟨hI', hs⟩

theorem run_inv {ops : List (Op K V)} {c c' : LRUCache K V}
    (hI : Inv c) (h : run c ops = some c') : Inv c' ∧ c'.size = c.size := by
  induction ops generalizing c with
  | nil =>
    have hcc : c = c' := Option.some_inj.mp h
    subst hcc
    exact ⟨hI, rfl⟩
  | cons op rest ih =>
    simp only [run] at h
    cases hs : step c op with
    | none =>
      rw [hs] at h
      cases h
    | some c1 =>
      rw [hs] at h
      have h' : run c1 rest = some c' := h
      obtain ⟨hI1, hsize1⟩ := step_inv hI hs
      obtain ⟨hI', hsize'⟩ := ih hI1 h'
      exact ⟨hI', by rw [hsize', hsize1]⟩

/-- C1: the claim says the key evicted on overflow is always the
least-recently-touched key.  Counter-evaluation: on a capacity-3 cache, after
`put 0; put 1; put 2; get 1; put 3` both keys 1 and 2 are present and key 2's
last touch (index 2) is older than key 1's (index 3), so key 2 is the
least-recently-touched; yet the eviction triggered by `put 4` removes key 1
and keeps key 2. -/
theorem c1_eviction_removes_recently_touched_key :
    (runK 3 [.put 0 10, .put 1 11, .put 2 12, .get 1, .put 3 13]).map
        (fun s => ((findTab s.table 1).isSome, (findTab s.table 2).isSome)) = some (true, true)
    ∧ (runK 3 [.put 0 10, .put 1 11, .put 2 12, .get 1, .put 3 13, .put 4 14]).map
        (fun s => ((findTab s.table 1).isSome, (findTab s.table 2).isSome)) = some (false, true)
    ∧ lastTouch ([.put 0 10, .put 1 11, .put 2 12, .get 1, .put 3 13] : List (Op Nat Nat)) 2
        = some 2
    ∧ lastTouch ([.put 0 10, .put 1 11, .put 2 12, .get 1, .put 3 13] : List (Op Nat Nat)) 1
        = some 3 := by
  decide

/-- C2: the claim says that after every public operation the chain from `tail`
visits every occupied slot exactly once, reaching `head` in
`occupied - 1` steps, and that `head`'s forward link is absent.
Counter-evaluation: (a) after `put 0; put 1; get 0` on a capacity-2 cache the
head slot's forward link is `some 1`, not absent; (b) after
`put 0; put 1; put 2; get 1; put 3; put 4` on a capacity-3 cache all 3 slots
are occupied (3 table entries) but the walk from `tail` reaches `head` after
one step, visiting only slots 0 and 1 — slot 2 is occupied yet unreachable. -/
theorem c2_chain_invariant_violated :
    (runK 2 [.put 0 10, .put 1 11, .get 0]).map
        (fun s => (s.head, (s.nodes.get? 0).map Node.next)) = some (some 0, some (some 1))
    ∧ (runK 3 [.put 0 10, .put 1 11, .put 2 12, .get 1, .put 3 13, .put 4 14]).map
        (fun s => (s.table.length, s.nodes.length, s.head,
                   chainFrom s.nodes s.nodes.length s.tail))
        = some (3, 3, some 1, [0, 1]) := by
  decide

/-- C3: the claim says `put` always succeeds on any successfully constructed
cache.  Counter-evaluation: on a capacity-1 cache, `put 0; get 0` completes
(the `get` erroneously sets `tail` to `None`), and the next `put 1` reaches
the eviction branch and panics on `self.tail.unwrap()`. -/
theorem c3_put_panics_after_singleton_get :
    (runK 1 [.put 0 10, .get 0]).isSome = true
    ∧ runK 1 [.put 0 10, .get 0, .put 1 11] = none := by
  decide

/-- C4 counterexample: the claim says construction with capacity zero fails
with `InvalidCapacity`.  In the code `new` performs no validation at all and
has no error channel: `new 0` returns an ordinary empty cache on which `get`
operates normally. -/
theorem c4_new_zero_succeeds :
    LRUCache.new Nat Nat 0 = ⟨[], [], none, none, 0⟩
    ∧ get (LRUCache.new Nat Nat 0) 7 = some (none, LRUCache.new Nat Nat 0) := by
  decide

/-- C4 amended: construction never fails — `new` accepts every capacity,
including zero, and returns the empty cache of that capacity (there is no
`InvalidCapacity` error in the code). -/
theorem c4_new_succeeds_any_capacity (cap k : Nat) :
    (LRUCache.new Nat Nat cap).size = cap
    ∧ (LRUCache.new Nat Nat cap).table = []
    ∧ (LRUCache.new Nat Nat cap).nodes = []
    ∧ get (LRUCache.new Nat Nat cap) k = some (none, LRUCache.new Nat Nat cap) :=
  ⟨rfl, rfl, rfl, rfl⟩

/-- C6: the claim says `get k` followed immediately by a `put` that would
otherwise have evicted `k` leaves `k` present.  Counter-evaluation on a
capacity-1 cache holding key 0: without the `get`, `put 1` evicts key 0
normally; with `get 0` first (a hit returning the value), the same `put 1`
panics instead of completing with key 0 retained. -/
theorem c6_get_then_put_panics :
    (runK 1 [.put 0 10, .put 1 11]).map (fun s => (findTab s.table 0).isSome) = some false
    ∧ ((runK 1 [.put 0 10]).bind (fun s => get s 0)).map (·.1) = some (some 10)
    ∧ runK 1 [.put 0 10, .get 0, .put 1 11] = none := by
  decide

/-- C8: a `get` of an absent key returns a miss and leaves the whole cache
state unchanged (the source returns before any mutation). -/
theorem c8_get_miss_no_side_effect {K V : Type} [DecidableEq K]
    (c : LRUCache K V) (k : K) (h : findTab c.table k = none) :
    get c k = some (none, c) := by
  simp [get, h]

/-- Witness for C8 at a concrete state: key 5 is absent from a fresh
capacity-3 cache and `get 5` is a side-effect-free miss. -/
theorem c8_get_miss_no_side_effect_witness :
    findTab (LRUCache.new Nat Nat 3).table 5 = none
    ∧ get (LRUCache.new Nat Nat 3) 5 = some (none, LRUCache.new Nat Nat 3) :=
  ⟨rfl, c8_get_miss_no_side_effect (LRUCache.new Nat Nat 3) 5 rfl⟩

/-- C10: on a cache constructed with capacity zero, the first `put` of any key
panics: the key is absent, `nodes.len() < size` fails (`0 < 0`), and the
eviction branch unwraps the absent `head`. -/
theorem c10_put_on_zero_capacity_panics (k v : Nat) :
    put (LRUCache.new Nat Nat 0) k v = none := by
  simp [put, LRUCache.new, findTab, evictPut]

/-- C5: for every sequence of operations on a cache of any capacity, after each
successfully completed operation the number of occupied slots (every slot of
`nodes` holds an entry) equals the number of key-index entries, and this count
never exceeds the capacity fixed at construction. -/
theorem c5_count_sync_and_capacity_bound (cap : Nat) (ops : List (Op Nat Nat))
    (s : LRUCache Nat Nat) (h : runK cap ops = some s) :
    s.table.length = s.nodes.length ∧ s.nodes.length ≤ cap := by
  obtain ⟨hI, hsize⟩ := run_inv inv_new h
  refine ⟨hI.tab_len, ?_⟩
  have hle := hI.len_le
  rw [hsize] at hle
  exact hle

/-- Witness for C5 at a concrete operation sequence (capacity 2, four ops
including an eviction and a read). -/
theorem c5_count_sync_and_capacity_bound_witness :
    ∃ s, runK 2 [.put 0 10, .put 1 11, .put 2 12, .get 1] = some s
      ∧ s.table.length = s.nodes.length ∧ s.nodes.length ≤ 2 :=
  ⟨_, rfl, c5_count_sync_and_capacity_bound 2 [.put 0 10, .put 1 11, .put 2 12, .get 1] _ rfl⟩

/-- C7: on any reachable state, after `put k v1`, a `put k v2` succeeds and is
an in-place update: a subsequent `get k` returns `v2`, and neither the
key-index entry count nor the slot count grows. -/
theorem c7_update_in_place {c c1 : LRUCache K V} {k : K} {v1 v2 : V}
    (hI : Inv c) (h1 : put c k v1 = some c1) :
    ∃ c2, put c1 k v2 = some c2
      ∧ (∃ c3, get c2 k = some (some v2, c3))
      ∧ c2.table.length = c1.table.length
      ∧ c2.nodes.length = c1.nodes.length := by
  obtain ⟨hI1, _, i, hf1, hh1, hi1⟩ := put_inv hI h1
  obtain ⟨c2, h2, htab2, hhead2, hsize2, hlen2, hI2⟩ := put_hit_spec v2 hI1 hf1
  refine ⟨c2, h2, ?_, ?_, hlen2⟩
  · have hf2 : findTab c2.table k = some (v2, i) := by
      rw [htab2]
      exact findTab_insertTab_self
    obtain ⟨c3, h3, _⟩ := get_hit_spec hI2 hf2
    exact ⟨c3, h3⟩
  · rw [htab2]
    exact length_insertTab_of_some hI1.nodup hf1

/-- Witness for C7: on a fresh capacity-2 cache, `put 0 1` then `put 0 2`
updates in place and `get 0` returns `2`. -/
theorem c7_update_in_place_witness :
    ∃ c2, put (⟨[(0, 1, 0)], [⟨0, none⟩], some 0, some 0, 2⟩ : LRUCache Nat Nat) 0 2 = some c2
      ∧ (∃ c3, get c2 0 = some (some 2, c3))
      ∧ c2.table.length
          = (⟨[(0, 1, 0)], [⟨0, none⟩], some 0, some 0, 2⟩ : LRUCache Nat Nat).table.length
      ∧ c2.nodes.length
          = (⟨[(0, 1, 0)], [⟨0, none⟩], some 0, some 0, 2⟩ : LRUCache Nat Nat).nodes.length :=
  @c7_update_in_place Nat Nat _ (LRUCache.new Nat Nat 2)
    ⟨[(0, 1, 0)], [⟨0, none⟩], some 0, some 0, 2⟩ 0 1 2 inv_new rfl

/-- C9: on any reachable state, if `get k` returns a value then an immediately
repeated `get k` (no intervening mutation) returns the same value, even though
each hit mutates the recency bookkeeping. -/
theorem c9_repeated_get_same_value {c c' : LRUCache K V} {k : K} {v : V}
    (hI : Inv c) (h : get c k = some (some v, c')) :
    ∃ c'', get c' k = some (some v, c'') := by
  obtain ⟨hI', htab, _, ho⟩ := get_inv hI h
  cases hf : findTab c.table k with
  | none =>
    rw [hf] at ho
    cases ho
  | some vi =>
    obtain ⟨v0, i⟩ := vi
    rw [hf] at ho
    have hv : v = v0 := by simpa using ho
    subst hv
    have hf' : findTab c'.table k = some (v, i) := by
      rw [htab]
      exact hf
    obtain ⟨c'', h'', _⟩ := get_hit_spec hI' hf'
    exact ⟨c'', h''⟩

/-- Witness for C9: on the singleton capacity-2 cache holding `0 ↦ 5`, a hit
`get 0` (which rewires the recency links) is followed by another `get 0`
returning `5` again. -/
theorem c9_repeated_get_same_value_witness :
    ∃ c'', get (⟨[(0, 5, 0)], [⟨0, some 0⟩], some 0, none, 2⟩ : LRUCache Nat Nat) 0
      = some (some 5, c'') :=
  @c9_repeated_get_same_value Nat Nat _
    ⟨[(0, 5, 0)], [⟨0, none⟩], some 0, some 0, 2⟩
    ⟨[(0, 5, 0)], [⟨0, some 0⟩], some 0, none, 2⟩ 0 5
    (by
      have hrun : runK 2 [.put 0 5]
          = some ⟨[(0, 5, 0)], [⟨0, none⟩], some 0, some 0, 2⟩ := rfl
      exact (run_inv inv_new hrun).1)
    rfl

end Lru
